import Mathlib

/-!
Verification of the retention/lifecycle engine and orchestration of
`db_backup.py` (class `db_bkp`).  Filenames are modelled as lists of
characters (Python `str`); the retention computation `manage_files` is
embedded faithfully, including the `zip`-unpack failure modes.
-/

namespace DbBackup

/-- A filename / string, modelled as its list of characters. -/
abbrev Name := List Char

/-- Python `s.split('_')` (line 378): split at every underscore;
`n` separators yield `n + 1` parts, and the empty string yields `[""]`. -/
def splitU : Name → List Name
  | [] => [[]]
  | c :: rest =>
    if c = '_' then [] :: splitU rest
    else (c :: (splitU rest).headD []) :: (splitU rest).tail

/-- Python `'_'.join(parts)` (line 388). -/
def joinU : List Name → Name
  | [] => []
  | [a] => a
  | a :: rest => a ++ '_' :: joinU rest

/-- Python string comparison `a <= b`: lexicographic by code point. -/
def lexLe : Name → Name → Bool
  | [], _ => true
  | _ :: _, [] => false
  | a :: as, b :: bs => if a < b then true else if b < a then false else lexLe as bs

/-- Insert into a sorted list w.r.t. a boolean `le` (stable, as `list.sort`). -/
def insertLe (le : Name → Name → Bool) (a : Name) : List Name → List Name
  | [] => [a]
  | b :: bs => if le a b then a :: b :: bs else b :: insertLe le a bs

/-- Insertion sort w.r.t. a boolean `le`; models Python `list.sort()` for the
total order on strings. -/
def isortR (le : Name → Name → Bool) : List Name → List Name
  | [] => []
  | a :: as => insertLe le a (isortR le as)

/-- The tier token `DAILY` (substring tested at line 390). -/
def tokD : Name := "DAILY".toList

/-- The tier token `WEEKLY` (substring tested at line 391). -/
def tokW : Name := "WEEKLY".toList

/-- The tier token `MONTHLY` (substring tested at line 392). -/
def tokM : Name := "MONTHLY".toList

/-- Retention tiers. -/
inductive Tier
  | DAILY
  | WEEKLY
  | MONTHLY
deriving DecidableEq

/-- The textual token of a tier. -/
def tierTok : Tier → Name
  | .DAILY => tokD
  | .WEEKLY => tokW
  | .MONTHLY => tokM

/-- `self._backup_counts` (lines 151-155): per-tier retention counts.
The claims fix the counts to be non-negative, hence `Nat`. -/
structure Policy where
  dly : Nat
  wly : Nat
  mly : Nat

/-- The retention count of a tier. -/
def Policy.count (p : Policy) : Tier → Nat
  | .DAILY => p.dly
  | .WEEKLY => p.wly
  | .MONTHLY => p.mly

/-- First `'_'`-field of a name (`zip` column `X`). -/
def field1 (nm : Name) : Name := (splitU nm).getD 0 []

/-- Second `'_'`-field of a name (`zip` column `Y`, the group key). -/
def field2 (nm : Name) : Name := (splitU nm).getD 1 []

/-- Third `'_'`-field of a name (`zip` column `Z`, the date part). -/
def field3 (nm : Name) : Name := (splitU nm).getD 2 []

/-- `'_'.join([x1, x2, x3])` (line 388): a listing entry as reassembled from
its first three fields. -/
def recon (nm : Name) : Name := joinU ((splitU nm).take 3)

/-- The length of the shortest field list over the listing.  `zip(*lists)`
truncates to this length, so `X, Y, Z = zip(*...)` (line 378) succeeds iff
the listing is non-empty and this minimum is exactly `3`. -/
def minFields (L : List Name) : Nat :=
  match L.map (fun nm => (splitU nm).length) with
  | [] => 0
  | n :: ns => ns.foldl min n

/-- Line 388: the reassembled entries of one group `y`, in listing order. -/
def subOf (L : List Name) (y : Name) : List Name :=
  (L.filter (fun nm => field2 nm == y)).map recon

/-- `prune` (lines 381-383): repeatedly pop the front of the sorted bucket
while it is longer than `n`; the popped entries, oldest first. -/
def takeDrop (bucket : List Name) (n : Nat) : List Name :=
  (isortR lexLe bucket).take (bucket.length - n)

/-- Python `t in s` on strings: substring test (lines 390-392). -/
def isInfixB (t s : Name) : Bool := decide (t <:+: s)

/-- Lines 390-400: the drop-list contribution of one group: the three
substring-filtered tier lists, each sorted and pruned. -/
def groupDrops (p : Policy) (s : List Name) : List Name :=
  takeDrop (s.filter (fun nm => isInfixB tokD nm)) p.dly ++
  takeDrop (s.filter (fun nm => isInfixB tokW nm)) p.wly ++
  takeDrop (s.filter (fun nm => isInfixB tokM nm)) p.mly

/-- `set(Y)` (line 386): the distinct group keys.  Python's set iteration
order is unspecified; we fix the canonical order of Mathlib's `dedup` (which
keeps each key's last occurrence), and no proved property depends on it. -/
def groupsOf (L : List Name) : List Name := (L.map field2).dedup

/-- Shallow embedding of `manage_files` (lines 359-400): either the
`ValueError` of the `zip` unpack at line 378 (empty listing, or minimal
field count different from 3), or the final `self._drop_list`. -/
def manage_files (L : List Name) (p : Policy) : Except Unit (List Name) :=
  if L.isEmpty then .error ()
  else if minFields L ≠ 3 then .error ()
  else .ok ((groupsOf L).flatMap (fun y => groupDrops p (subOf L y)))

/-! ### Dates and well-formed artifact names

`_bookkeeping` (lines 162-167) builds the filename
`TIER_{sorted-dash-joined-db-names}_{YYYY-MM-DD}.sql`.  We model calendar
dates as numeric triples and the `strftime('%Y-%m-%d')` rendering with
zero-padded digit strings. -/

/-- A calendar date at year-month-day precision. -/
structure Date where
  y : Nat
  m : Nat
  d : Nat
deriving DecidableEq

/-- A decimal digit character. -/
def digitC : Nat → Char
  | 0 => '0'
  | 1 => '1'
  | 2 => '2'
  | 3 => '3'
  | 4 => '4'
  | 5 => '5'
  | 6 => '6'
  | 7 => '7'
  | 8 => '8'
  | _ => '9'

/-- Two-digit zero-padded rendering (`%m`, `%d`). -/
def pad2 (n : Nat) : Name := [digitC (n / 10 % 10), digitC (n % 10)]

/-- Four-digit zero-padded rendering (`%Y` for years below 10000). -/
def pad4 (n : Nat) : Name :=
  [digitC (n / 1000 % 10), digitC (n / 100 % 10), digitC (n / 10 % 10), digitC (n % 10)]

/-- The fixed `.sql` filename suffix (line 167). -/
def sqlSuffix : Name := ".sql".toList

/-- The date part of a filename: `YYYY-MM-DD.sql`. -/
def dateSql (dt : Date) : Name :=
  pad4 dt.y ++ '-' :: (pad2 dt.m ++ '-' :: (pad2 dt.d ++ sqlSuffix))

/-- The artifact name `{TIER}_{group}_{YYYY-MM-DD}.sql` written by
`dump_local`/`dump_remote` (lines 260, 266, 272 and 321-338). -/
def mkName (t : Tier) (g : Name) (dt : Date) : Name :=
  tierTok t ++ '_' :: (g ++ '_' :: dateSql dt)

/-- Dates renderable by the fixed-width format. -/
def DateOk (dt : Date) : Prop := dt.y < 10000 ∧ dt.m < 100 ∧ dt.d < 100

/-- Chronological strict order on dates. -/
def dateLtB (d1 d2 : Date) : Bool :=
  decide (d1.y < d2.y) ||
    (decide (d1.y = d2.y) &&
      (decide (d1.m < d2.m) || (decide (d1.m = d2.m) && decide (d1.d < d2.d))))

/-- The decimal digit characters. -/
def digitChars : List Char := "0123456789".toList

/-- Is `c` a decimal digit? -/
def isDigitB (c : Char) : Bool := decide (c ∈ digitChars)

/-- The numeric value of a digit character. -/
def dval (c : Char) : Nat := c.toNat - 48

/-- Decode `YYYY-MM-DD...` into a date (positional, as the naming scheme
fixes the layout). -/
def parseDateKey : Name → Date
  | a :: b :: c :: d :: _ :: e :: f :: _ :: g :: h :: _ =>
    ⟨dval a * 1000 + dval b * 100 + dval c * 10 + dval d,
     dval e * 10 + dval f, dval g * 10 + dval h⟩
  | _ => ⟨0, 0, 0⟩

/-- The date encoded in a name's third field. -/
def dateKeyOf (nm : Name) : Date := parseDateKey (field3 nm)

/-- Specification-side order: ascending by date, ties broken by the full
artifact name. -/
def specLe (a b : Name) : Bool :=
  if dateKeyOf a = dateKeyOf b then lexLe a b else dateLtB (dateKeyOf a) (dateKeyOf b)

/-- Checks that a name's date field is exactly `YYYY-MM-DD.sql`. -/
def dateOkB : Name → Bool
  | a :: b :: c :: d :: x :: e :: f :: y :: g :: h :: rest =>
    isDigitB a && isDigitB b && isDigitB c && isDigitB d && x == '-' &&
    isDigitB e && isDigitB f && y == '-' && isDigitB g && isDigitB h &&
    rest == sqlSuffix
  | _ => false

/-- Well-formed artifact name: exactly three `'_'`-fields, the first a tier
token, the last a `YYYY-MM-DD.sql` date, and each tier token occurring as a
substring exactly when it is the name's own tier field.  (The last clause is
what the substring classification at lines 390-392 needs; a database name
containing a tier token violates it, see the correction of C1.) -/
def wfB (nm : Name) : Bool :=
  match splitU nm with
  | [f0, _, f2] =>
    (f0 == tokD || f0 == tokW || f0 == tokM) && dateOkB f2 &&
    (isInfixB tokD nm == (f0 == tokD)) &&
    (isInfixB tokW nm == (f0 == tokW)) &&
    (isInfixB tokM nm == (f0 == tokM))
  | _ => false

/-- Decoded-bucket membership: the name's first field is the tier token and
its second field is the group key. -/
def bucketPred (g : Name) (t : Tier) (nm : Name) : Bool :=
  field1 nm == tierTok t && field2 nm == g

/-- The (group, tier) bucket of a listing. -/
def bucket (L : List Name) (g : Name) (t : Tier) : List Name := L.filter (bucketPred g t)

/-- Python `'-'.join` (line 167). -/
def joinDash : List Name → Name
  | [] => []
  | [a] => a
  | a :: rest => a ++ '-' :: joinDash rest

/-- The artifact name built by `_bookkeeping` (line 167) plus the tier prefix
(lines 260/266/272): databases sorted, dash-joined, with the date rendered as
`%Y-%m-%d` and the `.sql` suffix. -/
def encodeName (t : Tier) (dbs : List Name) (dt : Date) : Name :=
  mkName t (joinDash (isortR lexLe dbs)) dt

/-- The tier denoted by a tier token, if any. -/
def tierOfTok (s : Name) : Option Tier :=
  if s = tokD then some .DAILY
  else if s = tokW then some .WEEKLY
  else if s = tokM then some .MONTHLY
  else none

/-- Modelled from the spec (§4.1 `decode`; the source never decodes names back
into components): split on `'_'` into exactly three fields, require a tier
token first and a `YYYY-MM-DD.sql` date last, and return (tier, group, date);
`none` is `MalformedName`. -/
def decodeSpec (nm : Name) : Option (Tier × Name × Date) :=
  match splitU nm with
  | [f0, f1, f2] =>
    match tierOfTok f0 with
    | some t => if dateOkB f2 then some (t, f1, parseDateKey f2) else none
    | none => none
  | _ => none

/-! ### Orchestration models

`_scrape_args` (lines 139-146) assigns one attribute `_{k.lower()}` per key of
`__DEFAULT_PROPERTIES__` (lines 24-86); `_bookkeeping` (lines 149-190) then
assigns four more; `read_db` (lines 218-242) assigns `stdout`/`stderr`.
Attribute values are irrelevant to the claims below, so only the assigned
attribute names are modelled; the `env`/`cli` arguments witness that the name
set is independent of the configuration values. -/

/-- The keys of `__DEFAULT_PROPERTIES__` (lines 24-86). -/
def defaultPropKeys : List String :=
  ["DLY_BACKUP_COUNT", "WLY_BACKUP_COUNT", "MLY_BACKUP_COUNT", "IP_HOST", "DB_USER",
   "PASSWORD", "DATABASES", "DIR_LOCAL", "SKIP_REMOTE", "IP_REMOTE", "USER_REMOTE",
   "PASS_REMOTE", "PORT_REMOTE", "DIR_REMOTE", "CREDENTIAL_FILE"]

/-- The attribute names `setattr(self, f'_{k.lower()}', value)` assigns
(line 146): `'_' + k.lower()` for each key `k` of `__DEFAULT_PROPERTIES__`,
written out lowered.  The name set is the same for any environment and CLI
configuration — only the values differ. -/
def scrapeAttrNames (env cli : String → Option String) : List String :=
  ["_dly_backup_count", "_wly_backup_count", "_mly_backup_count", "_ip_host", "_db_user",
   "_password", "_databases", "_dir_local", "_skip_remote", "_ip_remote", "_user_remote",
   "_pass_remote", "_port_remote", "_dir_remote", "_credential_file"]

/-- The attributes assigned by `_bookkeeping` (lines 151-167). -/
def bookkeepingAttrNames : List String :=
  ["_backup_counts", "_make_weekly", "_make_monthly", "_filename"]

/-- All attributes present after `__init__`. -/
def attrsAfterInit (env cli : String → Option String) : List String :=
  scrapeAttrNames env cli ++ bookkeepingAttrNames

/-- All attributes present after `read_db` (line 240 assigns
`self.stdout, self.stderr`). -/
def attrsAfterRead (env cli : String → Option String) : List String :=
  attrsAfterInit env cli ++ ["stdout", "stderr"]

/-- Filesystem effects of `dump_local`. -/
inductive LEv
  | writeFile (nm : Name)
  | removeFile (nm : Name)
deriving DecidableEq

/-- `f"DAILY_{self._filename}"` (line 260). -/
def dailyName (fname : Name) : Name := "DAILY_".toList ++ fname

/-- `f"WEEKLY_{self._filename}"` (line 266). -/
def weeklyName (fname : Name) : Name := "WEEKLY_".toList ++ fname

/-- `f"MONTHLY_{self._filename}"` (line 272). -/
def monthlyName (fname : Name) : Name := "MONTHLY_".toList ++ fname

/-- Shallow embedding of `dump_local` (lines 245-285): the effect trace and
the uncaught exception, if any.  Line 255 reads `self._skip_local`; a missing
attribute raises `AttributeError` before any effect.  `listing` is the
`os.listdir` result at line 277 (i.e. after the staged writes); the drop list
is deleted by popping from the end (lines 279-283). -/
def dump_local (attrs : List String) (skipLocal mkW mkM : Bool) (fname : Name)
    (listing : List Name) (p : Policy) : List LEv × Option String :=
  if "_skip_local" ∈ attrs then
    if skipLocal then ([], none)
    else
      let ws := LEv.writeFile (dailyName fname) ::
        ((if mkW then [LEv.writeFile (weeklyName fname)] else []) ++
          (if mkM then [LEv.writeFile (monthlyName fname)] else []))
      match manage_files listing p with
      | .error _ => (ws, some "ValueError")
      | .ok D => (ws ++ D.reverse.map LEv.removeFile, none)
  else ([], some "AttributeError: _skip_local")

/-- Remote-session events of `dump_remote`. -/
inductive REv
  | connect
  | sftpOpen
  | putFile (nm : Name)
  | listDir
  | removeFile (nm : Name)
  | sftpClose
  | clientClose
deriving DecidableEq

/-- The `sftp.remove` loop (lines 347-351): the drop list is popped from the
end; a failing removal raises out of `dump_remote` uncaught. -/
def removeLoop (removeOk : Name → Bool) : List Name → List REv × Option String
  | [] => ([], none)
  | nm :: rest =>
    if removeOk nm then
      let r := removeLoop removeOk rest
      (REv.removeFile nm :: r.1, r.2)
    else ([], some "IOError")

/-- Shallow embedding of `dump_remote` (lines 288-356): the remote-session
event trace and the uncaught exception, if any.  `localFiles` are the local
staging files present (an `sftp.put` of a missing local file raises, caught
and re-raised at lines 324-343); `remoteListing` is the `sftp.listdir` result
(line 345).  The `sftp.close()`/`client.close()` calls (lines 355-356) are
the last statements of the `if` body, with no `try/finally`. -/
def dump_remote (skipRemote : Bool) (localFiles : List Name) (fname : Name)
    (remoteListing : List Name) (p : Policy) (removeOk : Name → Bool) :
    List REv × Option String :=
  if skipRemote then ([], none)
  else
    if dailyName fname ∈ localFiles then
      if weeklyName fname ∈ localFiles then
        if monthlyName fname ∈ localFiles then
          match manage_files remoteListing p with
          | .error _ =>
            ([.connect, .sftpOpen, .putFile (dailyName fname),
              .putFile (weeklyName fname), .putFile (monthlyName fname), .listDir],
              some "ValueError")
          | .ok D =>
            let r := removeLoop removeOk D.reverse
            match r.2 with
            | some e =>
              ([.connect, .sftpOpen, .putFile (dailyName fname),
                .putFile (weeklyName fname), .putFile (monthlyName fname), .listDir] ++
                r.1, some e)
            | none =>
              ([.connect, .sftpOpen, .putFile (dailyName fname),
                .putFile (weeklyName fname), .putFile (monthlyName fname), .listDir] ++
                r.1 ++ [.sftpClose, .clientClose], none)
        else
          ([.connect, .sftpOpen, .putFile (dailyName fname), .putFile (weeklyName fname)],
            some "Unable to copy monthly backup.")
      else
        ([.connect, .sftpOpen, .putFile (dailyName fname)],
          some "Unable to copy weekly backup.")
    else ([.connect, .sftpOpen], some "Unable to copy daily backup.")

/-- Shallow embedding of `read_db` (lines 218-242): raises `RuntimeError` iff
the captured stderr is non-`None` and non-empty (line 241).  The process exit
status is never inspected and no timeout is set, hence `exitCode` is unused. -/
def read_db (stderr : Option String) (exitCode : Int) : Except String Unit :=
  match stderr with
  | some s => if s.length ≠ 0 then .error "RuntimeError" else .ok ()
  | none => .ok ()

/-- Cycle steps attempted by `main`. -/
inductive CycleEv
  | dumpAttempt
  | localStage
  | remoteStage
deriving DecidableEq

/-- Shallow embedding of `main` (lines 418-427): `read_db`, then
`dump_local`, then `dump_remote`; an uncaught exception stops the sequence
and the process exits non-zero (`true` = exit code 0). -/
def mainModel (stderr : Option String) (exitCode : Int) (attrs : List String)
    (skipLocal mkW mkM : Bool) (fname : Name) (localListing : List Name)
    (skipRemote : Bool) (localFiles : List Name) (remoteListing : List Name)
    (p : Policy) (removeOk : Name → Bool) : List CycleEv × Bool :=
  match read_db stderr exitCode with
  | .error _ => ([.dumpAttempt], false)
  | .ok _ =>
    match (dump_local attrs skipLocal mkW mkM fname localListing p).2 with
    | some _ => ([.dumpAttempt, .localStage], false)
    | none =>
      match (dump_remote skipRemote localFiles fname remoteListing p removeOk).2 with
      | some _ => ([.dumpAttempt, .localStage, .remoteStage], false)
      | none => ([.dumpAttempt, .localStage, .remoteStage], true)

/-! ### Basic facts about `splitU` and `joinU` -/

theorem splitU_ne_nil (s : Name) : splitU s ≠ [] := by
  induction s with
  | nil => simp [splitU]
  | cons c rest ih =>
    simp only [splitU]
    split <;> simp

theorem splitU_no_sep {s : Name} (h : '_' ∉ s) : splitU s = [s] := by
  induction s with
  | nil => rfl
  | cons c rest ih =>
    simp only [List.mem_cons, not_or] at h
    obtain ⟨h1, h2⟩ := h
    simp only [splitU, ih h2]
    rw [if_neg fun hc => h1 hc.symm]
    simp

theorem splitU_append {a : Name} (r : Name) (h : '_' ∉ a) :
    splitU (a ++ '_' :: r) = a :: splitU r := by
  induction a with
  | nil => simp [splitU]
  | cons c a' ih =>
    simp only [List.mem_cons, not_or] at h
    obtain ⟨h1, h2⟩ := h
    simp only [List.cons_append, splitU, List.append_eq]
    rw [ih h2, if_neg fun hc => h1 hc.symm]
    simp

theorem mem_splitU_no_sep {s p : Name} (hp : p ∈ splitU s) : '_' ∉ p := by
  induction s generalizing p with
  | nil =>
    simp only [splitU, List.mem_singleton] at hp
    simp [hp]
  | cons c rest ih =>
    simp only [splitU] at hp
    cases hr : splitU rest with
    | nil => exact absurd hr (splitU_ne_nil rest)
    | cons q qs =>
      rw [hr] at hp
      by_cases hc : c = '_'
      · rw [if_pos hc] at hp
        rcases List.mem_cons.mp hp with h | h
        · simp [h]
        · exact ih (hr ▸ h)
      · rw [if_neg hc] at hp
        simp only [List.headD_cons, List.tail_cons, List.mem_cons] at hp
        rcases hp with h | h
        · subst h
          intro hmem
          rcases List.mem_cons.mp hmem with h' | h'
          · exact hc h'.symm
          · exact ih (hr ▸ List.mem_cons_self q qs) h'
        · exact ih (hr ▸ List.mem_cons_of_mem q h)

theorem joinU_cons {a : Name} {l : List Name} (h : l ≠ []) :
    joinU (a :: l) = a ++ '_' :: joinU l := by
  cases l with
  | nil => exact absurd rfl h
  | cons b bs => rfl

theorem joinU_splitU (s : Name) : joinU (splitU s) = s := by
  induction s with
  | nil => rfl
  | cons c rest ih =>
    simp only [splitU]
    cases hr : splitU rest with
    | nil => exact absurd hr (splitU_ne_nil rest)
    | cons q qs =>
      rw [hr] at ih
      by_cases hc : c = '_'
      · rw [if_pos hc, joinU_cons (by simp), ih, hc]
        rfl
      · rw [if_neg hc]
        simp only [List.headD_cons, List.tail_cons]
        cases qs with
        | nil =>
          simp only [joinU] at ih ⊢
          rw [ih]
        | cons q' qs' =>
          rw [joinU_cons (by simp)] at ih
          rw [joinU_cons (by simp), List.cons_append, ih]

theorem joinU_three (a b c : Name) : joinU [a, b, c] = a ++ '_' :: (b ++ '_' :: c) := by
  rw [joinU_cons (by simp), joinU_cons (by simp)]
  rfl

theorem one_le_length_splitU (s : Name) : 1 ≤ (splitU s).length := by
  cases h : splitU s with
  | nil => exact absurd h (splitU_ne_nil s)
  | cons p ps => simp

/-! ### Facts about `lexLe` and the insertion sort -/

theorem bool_eq_of_iff {a b : Bool} (h : a = true ↔ b = true) : a = b := by
  cases a <;> cases b <;> simp_all

theorem lexLe_refl (s : Name) : lexLe s s = true := by
  induction s with
  | nil => rfl
  | cons c rest ih => simp [lexLe, lt_irrefl, ih]

theorem lexLe_cons_same (c : Char) (s t : Name) :
    lexLe (c :: s) (c :: t) = lexLe s t := by
  simp [lexLe, lt_irrefl]

theorem lexLe_cons_lt {a b : Char} (h : a < b) (s t : Name) :
    lexLe (a :: s) (b :: t) = true := by
  simp [lexLe, h]

theorem lexLe_cons_gt {a b : Char} (h : b < a) (s t : Name) :
    lexLe (a :: s) (b :: t) = false := by
  simp [lexLe, h, lt_asymm h]

theorem lexLe_total (a b : Name) : lexLe a b = true ∨ lexLe b a = true := by
  induction a generalizing b with
  | nil => left; rfl
  | cons c as ih =>
    cases b with
    | nil => right; rfl
    | cons d bs =>
      rcases lt_trichotomy c d with h | h | h
      · left; exact lexLe_cons_lt h _ _
      · subst h
        rcases ih bs with h | h
        · left; rw [lexLe_cons_same]; exact h
        · right; rw [lexLe_cons_same]; exact h
      · right; exact lexLe_cons_lt h _ _

theorem lexLe_append_left (p s t : Name) :
    lexLe (p ++ s) (p ++ t) = lexLe s t := by
  induction p with
  | nil => rfl
  | cons c p' ih => simp [List.cons_append, lexLe_cons_same, ih]

theorem perm_insertLe (le : Name → Name → Bool) (a : Name) (l : List Name) :
    List.Perm (insertLe le a l) (a :: l) := by
  induction l with
  | nil => rfl
  | cons b bs ih =>
    simp only [insertLe]
    split
    · rfl
    · exact (ih.cons b).trans (List.Perm.swap a b bs)

theorem perm_isortR (le : Name → Name → Bool) (l : List Name) :
    List.Perm (isortR le l) l := by
  induction l with
  | nil => rfl
  | cons a as ih =>
    exact (perm_insertLe le a (isortR le as)).trans (ih.cons a)

theorem mem_isortR {le : Name → Name → Bool} {l : List Name} {x : Name} :
    x ∈ isortR le l ↔ x ∈ l :=
  (perm_isortR le l).mem_iff

theorem length_isortR (le : Name → Name → Bool) (l : List Name) :
    (isortR le l).length = l.length :=
  (perm_isortR le l).length_eq

theorem insertLe_congr {le1 le2 : Name → Name → Bool} (a : Name) {l : List Name}
    (h : ∀ y ∈ l, le1 a y = le2 a y) : insertLe le1 a l = insertLe le2 a l := by
  induction l with
  | nil => rfl
  | cons b bs ih =>
    simp only [insertLe]
    rw [h b (List.mem_cons_self b bs)]
    split
    · rfl
    · rw [ih fun y hy => h y (List.mem_cons_of_mem b hy)]

theorem isortR_congr {le1 le2 : Name → Name → Bool} {l : List Name}
    (h : ∀ x ∈ l, ∀ y ∈ l, le1 x y = le2 x y) : isortR le1 l = isortR le2 l := by
  induction l with
  | nil => rfl
  | cons a as ih =>
    simp only [isortR]
    rw [ih fun x hx y hy =>
      h x (List.mem_cons_of_mem a hx) y (List.mem_cons_of_mem a hy)]
    exact insertLe_congr a fun y hy =>
      h a (List.mem_cons_self a as) y
        (List.mem_cons_of_mem a (mem_isortR.mp hy))

/-! ### Digit and padding comparison lemmas -/

theorem digitC_lt_iff : ∀ n < 10, ∀ m < 10, (digitC n < digitC m ↔ n < m) := by decide

theorem dval_digitC : ∀ n < 10, dval (digitC n) = n := by decide

theorem digit_cases {c : Char} (h : isDigitB c = true) :
    digitC (dval c) = c ∧ dval c < 10 := by
  have hc : c ∈ digitChars := of_decide_eq_true h
  have hd : digitChars = ['0', '1', '2', '3', '4', '5', '6', '7', '8', '9'] := rfl
  rw [hd] at hc
  fin_cases hc <;> exact ⟨by decide, by decide⟩

theorem lexLe_digit {n m : Nat} (hn : n < 10) (hm : m < 10) (s t : Name) :
    lexLe (digitC n :: s) (digitC m :: t) =
      if n = m then lexLe s t else decide (n < m) := by
  rcases Nat.lt_trichotomy n m with h | h | h
  · rw [lexLe_cons_lt ((digitC_lt_iff n hn m hm).mpr h), if_neg (Nat.ne_of_lt h)]
    simp [h]
  · subst h
    rw [if_pos rfl, lexLe_cons_same]
  · rw [lexLe_cons_gt ((digitC_lt_iff m hm n hn).mpr h), if_neg (Nat.ne_of_lt h).symm]
    simp [Nat.lt_asymm h]

theorem lexLe_pad4_append {n m : Nat} (hn : n < 10000) (hm : m < 10000) (s t : Name) :
    lexLe (pad4 n ++ s) (pad4 m ++ t) = if n = m then lexLe s t else decide (n < m) := by
  have b : ∀ k : Nat, k % 10 < 10 := fun k => Nat.mod_lt _ (by norm_num)
  simp only [pad4, List.cons_append, List.nil_append]
  rw [lexLe_digit (b _) (b _), lexLe_digit (b _) (b _), lexLe_digit (b _) (b _),
    lexLe_digit (b _) (b _)]
  split_ifs <;>
    first
      | rfl
      | (exact decide_eq_decide.mpr (by omega))
      | (exfalso; omega)

theorem lexLe_pad2_append {n m : Nat} (hn : n < 100) (hm : m < 100) (s t : Name) :
    lexLe (pad2 n ++ s) (pad2 m ++ t) = if n = m then lexLe s t else decide (n < m) := by
  have b : ∀ k : Nat, k % 10 < 10 := fun k => Nat.mod_lt _ (by norm_num)
  simp only [pad2, List.cons_append, List.nil_append]
  rw [lexLe_digit (b _) (b _), lexLe_digit (b _) (b _)]
  split_ifs <;>
    first
      | rfl
      | (exact decide_eq_decide.mpr (by omega))
      | (exfalso; omega)

theorem lexLe_dateSql {d1 d2 : Date} (h1 : DateOk d1) (h2 : DateOk d2) :
    (lexLe (dateSql d1) (dateSql d2) = true) ↔ (dateLtB d1 d2 = true ∨ d1 = d2) := by
  obtain ⟨hy1, hm1, hd1⟩ := h1
  obtain ⟨hy2, hm2, hd2⟩ := h2
  obtain ⟨y1, m1, dd1⟩ := d1
  obtain ⟨y2, m2, dd2⟩ := d2
  simp only [dateSql]
  rw [lexLe_pad4_append hy1 hy2]
  split_ifs with hy
  · subst hy
    rw [lexLe_cons_same, lexLe_pad2_append hm1 hm2]
    split_ifs with hm
    · subst hm
      rw [lexLe_cons_same, lexLe_pad2_append hd1 hd2]
      split_ifs with hd
      · subst hd
        simp [lexLe_refl, dateLtB]
      · simp [dateLtB, hd, Date.mk.injEq]
    · simp [dateLtB, hm, Date.mk.injEq]
  · simp [dateLtB, hy, Date.mk.injEq]

theorem parseDateKey_dateSql {dt : Date} (h : DateOk dt) : parseDateKey (dateSql dt) = dt := by
  obtain ⟨y, m, d⟩ := dt
  simp only [DateOk] at h
  obtain ⟨hy, hm, hd⟩ := h
  have b : ∀ k : Nat, k % 10 < 10 := fun k => Nat.mod_lt _ (by norm_num)
  simp only [dateSql, pad4, pad2, List.cons_append, List.nil_append, parseDateKey]
  rw [dval_digitC _ (b _), dval_digitC _ (b _), dval_digitC _ (b _), dval_digitC _ (b _),
    dval_digitC _ (b _), dval_digitC _ (b _), dval_digitC _ (b _), dval_digitC _ (b _)]
  simp only [Date.mk.injEq]
  omega

/-! ### Facts about well-formed names -/

theorem tierTok_inj : ∀ {t1 t2 : Tier}, tierTok t1 = tierTok t2 → t1 = t2 := by
  intro t1 t2 h
  cases t1 <;> cases t2 <;> first | rfl | (exfalso; revert h; decide)

theorem recon_eq_self {nm : Name} (h : (splitU nm).length ≤ 3) : recon nm = nm := by
  rw [recon, List.take_of_length_le h, joinU_splitU]

theorem dateOkB_recon {s : Name} (h : dateOkB s = true) :
    s = dateSql (parseDateKey s) ∧ DateOk (parseDateKey s) := by
  rcases s with _ | ⟨a, _ | ⟨b, _ | ⟨c, _ | ⟨d, _ | ⟨x, _ | ⟨e, _ | ⟨f, _ | ⟨y, _ | ⟨g, _ |
    ⟨hh, rest⟩⟩⟩⟩⟩⟩⟩⟩⟩⟩ <;> try simp [dateOkB] at h
  simp only [dateOkB, Bool.and_eq_true, and_assoc, beq_iff_eq] at h
  obtain ⟨ha, hb, hc, hd, hx, he, hf, hy, hg, hh2, hrest⟩ := h
  obtain ⟨ra, ba⟩ := digit_cases ha
  obtain ⟨rb, bb⟩ := digit_cases hb
  obtain ⟨rc, bc⟩ := digit_cases hc
  obtain ⟨rd, bd⟩ := digit_cases hd
  obtain ⟨re, be⟩ := digit_cases he
  obtain ⟨rf, bf⟩ := digit_cases hf
  obtain ⟨rg, bg⟩ := digit_cases hg
  obtain ⟨rh, bh⟩ := digit_cases hh2
  subst hx hy hrest
  simp only [parseDateKey]
  constructor
  · simp only [dateSql, pad4, pad2, List.cons_append, List.nil_append]
    have e1 : (dval a * 1000 + dval b * 100 + dval c * 10 + dval d) / 1000 % 10 = dval a := by
      omega
    have e2 : (dval a * 1000 + dval b * 100 + dval c * 10 + dval d) / 100 % 10 = dval b := by
      omega
    have e3 : (dval a * 1000 + dval b * 100 + dval c * 10 + dval d) / 10 % 10 = dval c := by
      omega
    have e4 : (dval a * 1000 + dval b * 100 + dval c * 10 + dval d) % 10 = dval d := by
      omega
    have e5 : (dval e * 10 + dval f) / 10 % 10 = dval e := by omega
    have e6 : (dval e * 10 + dval f) % 10 = dval f := by omega
    have e7 : (dval g * 10 + dval hh) / 10 % 10 = dval g := by omega
    have e8 : (dval g * 10 + dval hh) % 10 = dval hh := by omega
    rw [e1, e2, e3, e4, e5, e6, e7, e8, ra, rb, rc, rd, re, rf, rg, rh]
  · simp only [DateOk]
    refine ⟨by omega, by omega, by omega⟩

theorem wfB_elim {nm : Name} (h : wfB nm = true) :
    splitU nm = [field1 nm, field2 nm, field3 nm] ∧
    (field1 nm == tokD || (field1 nm == tokW || field1 nm == tokM)) = true ∧
    dateOkB (field3 nm) = true ∧
    isInfixB tokD nm = (field1 nm == tokD) ∧
    isInfixB tokW nm = (field1 nm == tokW) ∧
    isInfixB tokM nm = (field1 nm == tokM) := by
  unfold wfB at h
  rcases hs : splitU nm with _ | ⟨f0, _ | ⟨f1, _ | ⟨f2, _ | ⟨f3, rest⟩⟩⟩⟩ <;>
    rw [hs] at h
  · exact absurd hs (splitU_ne_nil nm)
  · simp at h
  · simp at h
  · have e1 : field1 nm = f0 := by simp [field1, hs]
    have e2 : field2 nm = f1 := by simp [field2, hs]
    have e3 : field3 nm = f2 := by simp [field3, hs]
    rw [e1, e2, e3]
    simp only [Bool.and_eq_true, and_assoc, Bool.or_assoc] at h
    obtain ⟨h1, h2, h3, h4, h5⟩ := h
    exact ⟨rfl, h1, h2, by simpa using h3, by simpa using h4, by simpa using h5⟩
  · simp at h

/-! ### The retention pipeline -/

theorem foldl_min_all3 (l : List Nat) (n : Nat) (hall : ∀ m ∈ l, m = 3) (hn : n = 3) :
    l.foldl min n = 3 := by
  induction l generalizing n with
  | nil => exact hn
  | cons m ms ih =>
    simp only [List.foldl_cons]
    refine ih _ (fun x hx => hall x (List.mem_cons_of_mem m hx)) ?_
    rw [hall m (List.mem_cons_self m ms), hn]
    exact min_self 3

theorem minFields_eq_three {L : List Name} (hne : L ≠ [])
    (h3 : ∀ nm ∈ L, (splitU nm).length = 3) : minFields L = 3 := by
  cases L with
  | nil => exact absurd rfl hne
  | cons x xs =>
    simp only [minFields, List.map_cons]
    exact foldl_min_all3 _ _
      (fun m hm => by
        obtain ⟨nm, hnm, rfl⟩ := List.mem_map.mp hm
        exact h3 nm (List.mem_cons_of_mem x hnm))
      (h3 x (List.mem_cons_self x xs))

theorem filter_flatMap (p : Name → Bool) (l : List Name) (f : Name → List Name) :
    (l.flatMap f).filter p = l.flatMap fun x => (f x).filter p := by
  induction l with
  | nil => rfl
  | cons a as ih => simp [List.flatMap_cons, List.filter_append, ih]

theorem flatMap_eq_nil {ys : List Name} {f : Name → List Name} (h : ∀ y ∈ ys, f y = []) :
    ys.flatMap f = [] := by
  induction ys with
  | nil => rfl
  | cons a as ih =>
    simp [List.flatMap_cons, h a (List.mem_cons_self a as),
      ih fun y hy => h y (List.mem_cons_of_mem a hy)]

theorem flatMap_eq_of_single {ys : List Name} {f : Name → List Name} {g : Name}
    (hnd : ys.Nodup) (hg : g ∈ ys) (hz : ∀ y ∈ ys, y ≠ g → f y = []) :
    ys.flatMap f = f g := by
  induction ys with
  | nil => cases hg
  | cons a as ih =>
    obtain ⟨hna, hnd'⟩ := List.nodup_cons.mp hnd
    rcases List.mem_cons.mp hg with rfl | hg'
    · have : as.flatMap f = [] :=
        flatMap_eq_nil fun y hy =>
          hz y (List.mem_cons_of_mem _ hy) fun h => hna (h ▸ hy)
      simp [List.flatMap_cons, this]
    · have hag : a ≠ g := fun h => hna (h ▸ hg')
      have hfa : f a = [] := hz a (List.mem_cons_self a as) hag
      rw [List.flatMap_cons, hfa, List.nil_append]
      exact ih hnd' hg' fun y hy hyg => hz y (List.mem_cons_of_mem a hy) hyg

theorem wf_len3 {nm : Name} (h : wfB nm = true) : (splitU nm).length = 3 := by
  rw [(wfB_elim h).1]
  rfl

theorem wf_infix_eq {nm : Name} (h : wfB nm = true) (t : Tier) :
    isInfixB (tierTok t) nm = (field1 nm == tierTok t) := by
  obtain ⟨-, -, -, hD, hW, hM⟩ := wfB_elim h
  cases t
  · exact hD
  · exact hW
  · exact hM

theorem manage_files_wf (L : List Name) (p : Policy) (hne : L ≠ [])
    (hwf : ∀ nm ∈ L, wfB nm = true) :
    manage_files L p = .ok ((groupsOf L).flatMap fun y =>
      takeDrop (bucket L y .DAILY) p.dly ++ (takeDrop (bucket L y .WEEKLY) p.wly ++
        takeDrop (bucket L y .MONTHLY) p.mly)) := by
  have h3 : ∀ nm ∈ L, (splitU nm).length = 3 := fun nm hm => wf_len3 (hwf nm hm)
  rw [manage_files, if_neg (by simpa using hne),
    if_neg (by simp [minFields_eq_three hne h3])]
  congr 1
  apply List.flatMap_congr
  intro y hy
  have hsub : subOf L y = L.filter fun nm => field2 nm == y := by
    rw [subOf]
    have hid : ∀ nm ∈ L.filter (fun nm => field2 nm == y), recon nm = nm := fun nm hnm =>
      recon_eq_self (le_of_eq (h3 nm (List.mem_filter.mp hnm).1))
    rw [List.map_congr_left hid]
    simp
  have hfil : ∀ t : Tier,
      (L.filter fun nm => field2 nm == y).filter (fun nm => isInfixB (tierTok t) nm) =
        bucket L y t := by
    intro t
    rw [List.filter_filter]
    apply List.filter_congr
    intro nm hnm
    rw [wf_infix_eq (hwf nm hnm) t]
    simp [bucketPred]
  rw [groupDrops, hsub]
  rw [show tokD = tierTok .DAILY from rfl, show tokW = tierTok .WEEKLY from rfl,
    show tokM = tierTok .MONTHLY from rfl]
  rw [hfil .DAILY, hfil .WEEKLY, hfil .MONTHLY, List.append_assoc]

theorem mem_takeDrop {L : List Name} {g : Name} {t : Tier} {n : Nat} {nm : Name}
    (h : nm ∈ takeDrop (bucket L g t) n) : nm ∈ L ∧ bucketPred g t nm = true := by
  rw [takeDrop] at h
  have hmem := mem_isortR.mp (List.mem_of_mem_take h)
  exact List.mem_filter.mp hmem

theorem bucketPred_eq {g : Name} {t : Tier} {nm : Name} (h : bucketPred g t nm = true) :
    field1 nm = tierTok t ∧ field2 nm = g := by
  simpa [bucketPred] using h

theorem bucketPred_unique {g g' : Name} {t t' : Tier} {nm : Name}
    (h1 : bucketPred g t nm = true) (h2 : bucketPred g' t' nm = true) :
    g = g' ∧ t = t' := by
  obtain ⟨ha1, ha2⟩ := bucketPred_eq h1
  obtain ⟨hb1, hb2⟩ := bucketPred_eq h2
  exact ⟨ha2 ▸ hb2 ▸ rfl, tierTok_inj (ha1 ▸ hb1 ▸ rfl)⟩

theorem takeDrop_filter_ne {L : List Name} {y g : Name} {t' t : Tier} {n : Nat}
    (hd : y ≠ g ∨ t' ≠ t) :
    (takeDrop (bucket L y t') n).filter (bucketPred g t) = [] :=
  List.filter_eq_nil_iff.mpr fun nm hnm hp => by
    obtain ⟨hg, ht⟩ := bucketPred_unique (mem_takeDrop hnm).2 hp
    rcases hd with hd | hd
    · exact hd hg
    · exact hd ht

theorem takeDrop_filter_self {L : List Name} {g : Name} {t : Tier} {n : Nat} :
    (takeDrop (bucket L g t) n).filter (bucketPred g t) = takeDrop (bucket L g t) n :=
  List.filter_eq_self.mpr fun nm hnm => (mem_takeDrop hnm).2

theorem bucket_eq_nil_of_not_mem_groups {L : List Name} {g : Name} {t : Tier}
    (hg : g ∉ groupsOf L) : bucket L g t = [] :=
  List.filter_eq_nil_iff.mpr fun nm hnm hp => by
    refine hg ?_
    rw [groupsOf, List.mem_dedup]
    exact List.mem_map.mpr ⟨nm, hnm, (bucketPred_eq hp).2⟩

theorem takeDrop_nil (n : Nat) : takeDrop [] n = [] := by
  simp [takeDrop, isortR]

theorem groupsOf_nodup (L : List Name) : (groupsOf L).Nodup := by
  rw [groupsOf]
  exact List.nodup_dedup _

/-- The drop list of the well-formed pipeline, restricted to one decoded
(group, tier) bucket, is exactly that bucket's pruned prefix. -/
theorem filtered_drops (L : List Name) (p : Policy) (g : Name) (t : Tier) :
    (((groupsOf L).flatMap fun y =>
      takeDrop (bucket L y .DAILY) p.dly ++ (takeDrop (bucket L y .WEEKLY) p.wly ++
        takeDrop (bucket L y .MONTHLY) p.mly)).filter (bucketPred g t)) =
      takeDrop (bucket L g t) (p.count t) := by
  rw [filter_flatMap]
  by_cases hg : g ∈ groupsOf L
  · rw [flatMap_eq_of_single (groupsOf_nodup L) hg
      (fun y hy hyg => by
        simp only [List.filter_append]
        rw [takeDrop_filter_ne (Or.inl hyg), takeDrop_filter_ne (Or.inl hyg),
          takeDrop_filter_ne (Or.inl hyg)]
        rfl)]
    simp only [List.filter_append]
    cases t
    · rw [takeDrop_filter_self, takeDrop_filter_ne (Or.inr (by decide)),
        takeDrop_filter_ne (Or.inr (by decide))]
      simp [Policy.count]
    · rw [takeDrop_filter_self, takeDrop_filter_ne (Or.inr (by decide)),
        takeDrop_filter_ne (Or.inr (by decide))]
      simp [Policy.count]
    · rw [takeDrop_filter_self, takeDrop_filter_ne (Or.inr (by decide)),
        takeDrop_filter_ne (Or.inr (by decide))]
      simp [Policy.count]
  · rw [flatMap_eq_nil fun y hy => by
      have hyg : y ≠ g := fun h => hg (h ▸ hy)
      simp only [List.filter_append]
      rw [takeDrop_filter_ne (Or.inl hyg), takeDrop_filter_ne (Or.inl hyg),
        takeDrop_filter_ne (Or.inl hyg)]
      rfl]
    rw [bucket_eq_nil_of_not_mem_groups hg, takeDrop_nil]

/-- Within one decoded bucket of well-formed names, the code's full-name
lexicographic order coincides with the specification order (date ascending,
ties by full name). -/
theorem lexLe_eq_specLe_of_same {nm1 nm2 : Name} (h1 : wfB nm1 = true) (h2 : wfB nm2 = true)
    (hf1 : field1 nm1 = field1 nm2) (hf2 : field2 nm1 = field2 nm2) :
    lexLe nm1 nm2 = specLe nm1 nm2 := by
  obtain ⟨hs1, -, hdate1, -, -, -⟩ := wfB_elim h1
  obtain ⟨hs2, -, hdate2, -, -, -⟩ := wfB_elim h2
  obtain ⟨hrec1, hok1⟩ := dateOkB_recon hdate1
  obtain ⟨hrec2, hok2⟩ := dateOkB_recon hdate2
  have e1 : nm1 = field1 nm1 ++ '_' :: (field2 nm1 ++ '_' :: field3 nm1) := by
    conv_lhs => rw [← joinU_splitU nm1, hs1, joinU_three]
  have e2 : nm2 = field1 nm1 ++ '_' :: (field2 nm1 ++ '_' :: field3 nm2) := by
    conv_lhs => rw [← joinU_splitU nm2, hs2, joinU_three]
    rw [hf1, hf2]
  have hsplit : ∀ s : Name,
      field1 nm1 ++ '_' :: (field2 nm1 ++ '_' :: s) =
        (field1 nm1 ++ '_' :: field2 nm1 ++ ['_']) ++ s := by
    intro s
    simp
  have hlex : lexLe nm1 nm2 = lexLe (field3 nm1) (field3 nm2) := by
    conv_lhs => rw [e1, e2, hsplit, hsplit]
    rw [lexLe_append_left]
  rw [specLe]
  by_cases hd : dateKeyOf nm1 = dateKeyOf nm2
  · rw [if_pos hd]
  · rw [if_neg hd, hlex]
    apply bool_eq_of_iff
    conv_lhs => rw [hrec1, hrec2]
    rw [lexLe_dateSql hok1 hok2]
    have hk1 : dateKeyOf nm1 = parseDateKey (field3 nm1) := rfl
    have hk2 : dateKeyOf nm2 = parseDateKey (field3 nm2) := rfl
    rw [hk1, hk2] at hd ⊢
    simp [hd]

/-- C1 (amended): over a non-empty listing of strictly well-formed artifact
names, the deletion set restricted to any decoded (group, tier) bucket of
size `S` is exactly the `S − N` first entries of the bucket sorted ascending
by date with ties broken by the full name, and so has exactly
`max(0, S − N) = S ∸ N` entries. -/
theorem C1_bucket_retention (L : List Name) (p : Policy) (g : Name) (t : Tier)
    (hne : L ≠ []) (hwf : ∀ nm ∈ L, wfB nm = true) :
    ∃ D, manage_files L p = .ok D ∧
      D.filter (bucketPred g t) =
        (isortR specLe (bucket L g t)).take ((bucket L g t).length - p.count t) ∧
      (D.filter (bucketPred g t)).length = (bucket L g t).length - p.count t := by
  refine ⟨_, manage_files_wf L p hne hwf, ?_, ?_⟩
  · rw [filtered_drops, takeDrop]
    congr 1
    apply isortR_congr
    intro x hx y hy
    have hxL := List.mem_filter.mp hx
    have hyL := List.mem_filter.mp hy
    obtain ⟨hx1, hx2⟩ := bucketPred_eq hxL.2
    obtain ⟨hy1, hy2⟩ := bucketPred_eq hyL.2
    exact lexLe_eq_specLe_of_same (hwf x hxL.1) (hwf y hyL.1)
      (hx1.trans hy1.symm) (hx2.trans hy2.symm)
  · rw [filtered_drops, takeDrop, List.length_take, length_isortR]
    exact Nat.min_eq_left (Nat.sub_le _ _)

/-- C1 counterexample: the well-formed WEEKLY artifact
`WEEKLY_DAILYx_2024-01-01.sql` (a database named `DAILYx`) is deleted under
policy (DAILY 0, WEEKLY 5, MONTHLY 5) although its own (DAILYx, WEEKLY)
bucket has 1 ≤ 5 entries, because the substring test `"DAILY" in name`
(line 390) also matches it; the claim predicts zero deletions here. -/
theorem C1_counterexample :
    manage_files ["WEEKLY_DAILYx_2024-01-01.sql".toList] ⟨0, 5, 5⟩ =
      .ok ["WEEKLY_DAILYx_2024-01-01.sql".toList] ∧
    (["WEEKLY_DAILYx_2024-01-01.sql".toList].filter
      (bucketPred "DAILYx".toList Tier.WEEKLY)).length = 1 ∧
    (bucket ["WEEKLY_DAILYx_2024-01-01.sql".toList] "DAILYx".toList Tier.WEEKLY).length -
      Policy.count ⟨0, 5, 5⟩ Tier.WEEKLY = 0 := by
  refine ⟨?_, ?_, ?_⟩
  · rfl
  · decide
  · decide

/-- C4 counterexample: on the empty listing `manage_files` raises (the
`zip`-unpack at line 378 gets zero columns), under any policy — here the
default counts — instead of returning an empty deletion set. -/
theorem C4_counterexample : manage_files [] ⟨5, 5, 5⟩ = .error () := rfl

/-- C4 (amended): for every retention policy, the retention computation on
the empty listing raises `ValueError` (models line 378) rather than
producing an empty deletion set. -/
theorem C4_empty_listing_errors (p : Policy) : manage_files [] p = .error () := rfl

/-! ### Malformed names and group independence -/

theorem foldl_min_le_init (l : List Nat) (x : Nat) : l.foldl min x ≤ x := by
  induction l generalizing x with
  | nil => exact le_refl x
  | cons k ks ih => exact le_trans (ih (min x k)) (min_le_left x k)

theorem foldl_min_le {l : List Nat} {m : Nat} (h : m ∈ l) (n : Nat) : l.foldl min n ≤ m := by
  induction l generalizing n with
  | nil => cases h
  | cons k ks ih =>
    rcases List.mem_cons.mp h with rfl | h'
    · exact le_trans (foldl_min_le_init ks (min n m)) (min_le_right n m)
    · exact ih h' (min n k)

theorem minFields_le {L : List Name} {nm : Name} (h : nm ∈ L) :
    minFields L ≤ (splitU nm).length := by
  cases L with
  | nil => cases h
  | cons x xs =>
    simp only [minFields, List.map_cons]
    rcases List.mem_cons.mp h with rfl | h'
    · exact foldl_min_le_init _ _
    · exact foldl_min_le (List.mem_map_of_mem _ h') _

theorem manage_files_ok_elim {L : List Name} {p : Policy} {D : List Name}
    (h : manage_files L p = .ok D) :
    L ≠ [] ∧ minFields L = 3 ∧
      D = (groupsOf L).flatMap fun y => groupDrops p (subOf L y) := by
  rw [manage_files] at h
  split_ifs at h with h1 h2
  rw [Except.ok.injEq] at h
  exact ⟨by simpa using h1, by simpa using h2, h.symm⟩

theorem mem_takeDrop_filter {s : List Name} {q : Name → Bool} {n : Nat} {nm : Name}
    (h : nm ∈ takeDrop (s.filter q) n) : nm ∈ s ∧ q nm = true := by
  rw [takeDrop] at h
  exact List.mem_filter.mp (mem_isortR.mp (List.mem_of_mem_take h))

theorem mem_groupDrops {p : Policy} {s : List Name} {nm : Name}
    (h : nm ∈ groupDrops p s) :
    nm ∈ s ∧ (isInfixB tokD nm = true ∨ isInfixB tokW nm = true ∨ isInfixB tokM nm = true) := by
  rw [groupDrops] at h
  rcases List.mem_append.mp h with h' | h'
  · rcases List.mem_append.mp h' with h'' | h''
    · exact ⟨(mem_takeDrop_filter h'').1, Or.inl (mem_takeDrop_filter h'').2⟩
    · exact ⟨(mem_takeDrop_filter h'').1, Or.inr (Or.inl (mem_takeDrop_filter h'').2)⟩
  · exact ⟨(mem_takeDrop_filter h').1, Or.inr (Or.inr (mem_takeDrop_filter h').2)⟩

theorem splitU_recon {nm : Name} (h : 3 ≤ (splitU nm).length) :
    splitU (recon nm) = (splitU nm).take 3 := by
  rcases hs : splitU nm with _ | ⟨a, _ | ⟨b, _ | ⟨c, rest⟩⟩⟩ <;> rw [hs] at h
  · simp at h
  · simp at h
  · simp at h
  · have ha : '_' ∉ a := mem_splitU_no_sep (hs ▸ List.mem_cons_self _ _)
    have hb : '_' ∉ b := mem_splitU_no_sep (hs ▸ List.mem_cons_of_mem _ (List.mem_cons_self _ _))
    have hc : '_' ∉ c := mem_splitU_no_sep
      (hs ▸ List.mem_cons_of_mem _ (List.mem_cons_of_mem _ (List.mem_cons_self _ _)))
    rw [recon, hs]
    simp only [List.take_succ_cons, List.take_zero]
    rw [joinU_three, splitU_append _ ha, splitU_append _ hb, splitU_no_sep hc]

theorem field2_recon {nm : Name} (h : 3 ≤ (splitU nm).length) :
    field2 (recon nm) = field2 nm := by
  rw [field2, field2, splitU_recon h]
  rcases hs : splitU nm with _ | ⟨a, _ | ⟨b, rest⟩⟩ <;> rw [hs] at h
  · simp at h
  · simp at h
  · simp [List.take]

/-- C2 counterexample: a malformed entry (`"backup"`, one field) makes the
whole retention computation raise `ValueError` (line 378), aborting it for
the well-formed entry too; and a name with an unparsable date
(`DAILY_x_baddate`) is selected for deletion under DAILY count 0. -/
theorem C2_counterexample :
    manage_files ["DAILY_a_2024-01-01.sql".toList, "backup".toList] ⟨5, 5, 5⟩ = .error () ∧
    manage_files ["DAILY_x_baddate".toList] ⟨0, 5, 5⟩ = .ok ["DAILY_x_baddate".toList] :=
  ⟨rfl, rfl⟩

/-- C2 (amended): a listing entry with fewer than three `'_'`-fields aborts
the whole computation with `ValueError` (so malformed names are not skipped);
what does hold is that every name emitted into a deletion set contains one of
the tier tokens as a substring, so a name with an unrecognizable tier is never
deleted.  Dates are never parsed, so names with unparsable dates participate
and can be deleted (see the counterexample). -/
theorem C2_malformed :
    (∀ (L : List Name) (p : Policy) (nm : Name), nm ∈ L → (splitU nm).length < 3 →
      manage_files L p = .error ()) ∧
    (∀ (L : List Name) (p : Policy) (D : List Name), manage_files L p = .ok D →
      ∀ nm ∈ D,
        isInfixB tokD nm = true ∨ isInfixB tokW nm = true ∨ isInfixB tokM nm = true) := by
  constructor
  · intro L p nm hnm hlen
    rw [manage_files]
    rw [if_neg (by simpa using List.ne_nil_of_mem hnm)]
    rw [if_pos (by have := minFields_le hnm; omega)]
  · intro L p D hok nm hnm
    obtain ⟨-, -, hD⟩ := manage_files_ok_elim hok
    rw [hD] at hnm
    obtain ⟨y, -, hmem⟩ := List.mem_flatMap.mp hnm
    exact (mem_groupDrops hmem).2

/-- C10: the retention computation processes groups independently: the drop
list is the concatenation of per-group contributions, and every name emitted
while processing group `y` itself carries `y` as its group field — so pruning
one group never removes another group's artifact. -/
theorem C10_group_independence (L : List Name) (p : Policy) (D : List Name)
    (hok : manage_files L p = .ok D) :
    D = ((groupsOf L).flatMap fun y => groupDrops p (subOf L y)) ∧
    ∀ y ∈ groupsOf L, ∀ nm ∈ groupDrops p (subOf L y), field2 nm = y := by
  obtain ⟨hne, hmin, hD⟩ := manage_files_ok_elim hok
  refine ⟨hD, fun y hy nm hnm => ?_⟩
  have hsub : nm ∈ subOf L y := (mem_groupDrops hnm).1
  rw [subOf] at hsub
  obtain ⟨orig, horig, rfl⟩ := List.mem_map.mp hsub
  obtain ⟨horigL, hor2⟩ := List.mem_filter.mp horig
  have h3 : 3 ≤ (splitU orig).length := hmin ▸ minFields_le horigL
  rw [field2_recon h3]
  exact eq_of_beq hor2

/-! ### Idempotence of the retention computation -/

theorem takeDrop_eq_nil_of_le {b : List Name} {n : Nat} (h : b.length ≤ n) :
    takeDrop b n = [] := by
  rw [takeDrop, Nat.sub_eq_zero_of_le h, List.take_zero]

theorem length_filter_le_of_imp {l : List Name} {p q : Name → Bool}
    (h : ∀ x ∈ l, p x = true → q x = true) :
    (l.filter p).length ≤ (l.filter q).length := by
  have heq : l.filter p = (l.filter q).filter p := by
    rw [List.filter_filter]
    apply List.filter_congr
    intro x hx
    cases hp : p x
    · simp
    · simp [h x hx hp]
  rw [heq]
  exact (List.filter_sublist _).length_le

theorem filter_comm (p q : Name → Bool) (l : List Name) :
    (l.filter p).filter q = (l.filter q).filter p := by
  rw [List.filter_filter, List.filter_filter]
  exact List.filter_congr fun x _ => Bool.and_comm _ _

theorem subOf_eq_filter {L : List Name} (h3 : ∀ nm ∈ L, (splitU nm).length = 3) (y : Name) :
    subOf L y = L.filter fun nm => field2 nm == y := by
  rw [subOf]
  have hid : ∀ nm ∈ L.filter (fun nm => field2 nm == y), recon nm = nm := fun nm hnm =>
    recon_eq_self (le_of_eq (h3 nm (List.mem_filter.mp hnm).1))
  rw [List.map_congr_left hid]
  simp

/-- On a non-empty listing of exactly-three-field names, `manage_files`
succeeds and its drop list is the per-group concatenation (reassembly is the
identity, so no tier/date assumptions are needed). -/
theorem manage_files_eq_flat {L : List Name} (p : Policy) (hne : L ≠ [])
    (h3 : ∀ nm ∈ L, (splitU nm).length = 3) :
    manage_files L p = .ok ((groupsOf L).flatMap fun y =>
      groupDrops p (L.filter fun nm => field2 nm == y)) := by
  rw [manage_files, if_neg (by simpa using hne),
    if_neg (by simp [minFields_eq_three hne h3])]
  congr 1
  exact List.flatMap_congr fun y _ => by rw [subOf_eq_filter h3 y]

/-- Removing a superset of a pruned prefix leaves at most `n` survivors of
the pruned list: the popped entries are the first `b.length − n` of the
sorted list, and everything of `b` outside them is among the last `n`. -/
theorem takeDrop_filter_not_mem_length_le {b D : List Name} {n : Nat}
    (hD : ∀ nm ∈ takeDrop b n, nm ∈ D) :
    (b.filter fun nm => decide (nm ∉ D)).length ≤ n := by
  have h1 : ((b.filter fun nm => decide (nm ∉ D))).length ≤
      ((b.filter fun nm => decide (nm ∉ takeDrop b n))).length :=
    length_filter_le_of_imp fun x _ hp => by
      have hxD : x ∉ D := of_decide_eq_true hp
      exact decide_eq_true fun hxDr => hxD (hD x hxDr)
  refine le_trans h1 ?_
  have hperm : ((b.filter fun nm => decide (nm ∉ takeDrop b n))).length =
      (((isortR lexLe b).filter fun nm => decide (nm ∉ takeDrop b n))).length :=
    ((perm_isortR lexLe b).filter _).length_eq.symm
  rw [hperm]
  have hTD : takeDrop b n = (isortR lexLe b).take (b.length - n) := rfl
  calc (((isortR lexLe b).filter fun nm => decide (nm ∉ takeDrop b n))).length
      = ((((isortR lexLe b).take (b.length - n) ++
          (isortR lexLe b).drop (b.length - n)).filter
            fun nm => decide (nm ∉ takeDrop b n))).length := by
        rw [List.take_append_drop]
    _ = ((((isortR lexLe b).take (b.length - n)).filter
            fun nm => decide (nm ∉ takeDrop b n))).length +
        ((((isortR lexLe b).drop (b.length - n)).filter
            fun nm => decide (nm ∉ takeDrop b n))).length := by
        rw [List.filter_append, List.length_append]
    _ ≤ 0 + ((isortR lexLe b).drop (b.length - n)).length := by
        have hnil : (((isortR lexLe b).take (b.length - n)).filter
            fun nm => decide (nm ∉ takeDrop b n)) = [] :=
          List.filter_eq_nil_iff.mpr fun nm hnm hp => (of_decide_eq_true hp) (hTD ▸ hnm)
        rw [hnil]
        simp only [List.length_nil, Nat.zero_add]
        exact List.length_filter_le _ _
    _ ≤ n := by
        rw [Nat.zero_add, List.length_drop, length_isortR]
        omega

theorem mem_groupsOf_of_filter {L : List Name} {q : Name → Bool} {y : Name}
    (h : y ∈ groupsOf (L.filter q)) : y ∈ groupsOf L := by
  rw [groupsOf, List.mem_dedup] at h ⊢
  obtain ⟨nm, hnm, rfl⟩ := List.mem_map.mp h
  exact List.mem_map.mpr ⟨nm, (List.mem_filter.mp hnm).1, rfl⟩

/-- C6 counterexample, two parts.  (a) With DAILY count 0 the single artifact
is deleted; re-running on the listing minus the deletion set runs on the
empty listing and raises `ValueError`.  (b) A name with four `'_'`-fields is
deleted under its truncated three-field reconstruction, which removal cannot
match: the remainder equals the original listing and the recomputation emits
the same deletion set again instead of an empty one. -/
theorem C6_counterexample :
    (manage_files ["DAILY_x_2024-01-01.sql".toList] ⟨0, 5, 5⟩ =
        .ok ["DAILY_x_2024-01-01.sql".toList] ∧
      manage_files (["DAILY_x_2024-01-01.sql".toList].filter
        fun nm => decide (nm ∉ ["DAILY_x_2024-01-01.sql".toList])) ⟨0, 5, 5⟩ =
        .error ()) ∧
    (manage_files ["DAILY_g_2024-01-01.sql_x".toList, "DAILY_g_2024-01-02.sql".toList]
        ⟨1, 5, 5⟩ = .ok ["DAILY_g_2024-01-01.sql".toList] ∧
      manage_files ((["DAILY_g_2024-01-01.sql_x".toList,
        "DAILY_g_2024-01-02.sql".toList]).filter
          fun nm => decide (nm ∉ ["DAILY_g_2024-01-01.sql".toList])) ⟨1, 5, 5⟩ =
        .ok ["DAILY_g_2024-01-01.sql".toList]) :=
  ⟨⟨rfl, rfl⟩, ⟨rfl, rfl⟩⟩

/-- C6 (amended): for every listing whose names split into exactly three
`'_'`-fields, removing the computed deletion set and recomputing yields an
empty deletion set — provided the remaining listing is non-empty (on an
emptied listing the code raises instead; names with more than three fields
are deleted under truncated reconstructions that removal cannot match, so
both restrictions are forced — see the counterexample). -/
theorem C6_idempotent (L : List Name) (p : Policy) (D : List Name)
    (h3 : ∀ nm ∈ L, (splitU nm).length = 3) (hok : manage_files L p = .ok D)
    (hne : (L.filter fun nm => decide (nm ∉ D)) ≠ []) :
    manage_files (L.filter fun nm => decide (nm ∉ D)) p = .ok [] := by
  have hLne : L ≠ [] := (manage_files_ok_elim hok).1
  have h3' : ∀ nm ∈ (L.filter fun nm => decide (nm ∉ D)), (splitU nm).length = 3 :=
    fun nm hnm => h3 nm (List.mem_filter.mp hnm).1
  have hDeq : D = (groupsOf L).flatMap fun y =>
      groupDrops p (L.filter fun nm => field2 nm == y) :=
    Except.ok.inj ((manage_files_eq_flat p hLne h3).symm.trans hok).symm
  rw [manage_files_eq_flat p hne h3']
  have hz : ((groupsOf (L.filter fun nm => decide (nm ∉ D))).flatMap fun y =>
      groupDrops p ((L.filter fun nm => decide (nm ∉ D)).filter
        fun nm => field2 nm == y)) = [] := by
    apply flatMap_eq_nil
    intro y hy
    have hyL : y ∈ groupsOf L := mem_groupsOf_of_filter hy
    have hcomp : ∀ (tok : Name) (n : Nat),
        (∀ nm ∈ takeDrop ((L.filter fun nm => field2 nm == y).filter
          fun nm => isInfixB tok nm) n, nm ∈ D) →
        takeDrop (((L.filter fun nm => decide (nm ∉ D)).filter
          fun nm => field2 nm == y).filter fun nm => isInfixB tok nm) n = [] := by
      intro tok n hmem
      have hA : ((L.filter fun nm => decide (nm ∉ D)).filter
          (fun nm => field2 nm == y)).filter (fun nm => isInfixB tok nm) =
          ((L.filter (fun nm => field2 nm == y)).filter
            (fun nm => isInfixB tok nm)).filter fun nm => decide (nm ∉ D) := by
        rw [filter_comm (fun nm => decide (nm ∉ D)) (fun nm => field2 nm == y),
          filter_comm (fun nm => decide (nm ∉ D)) (fun nm => isInfixB tok nm)]
      rw [hA]
      exact takeDrop_eq_nil_of_le (takeDrop_filter_not_mem_length_le hmem)
    rw [groupDrops,
      hcomp tokD p.dly (fun nm hnm => by
        rw [hDeq]
        exact List.mem_flatMap.mpr ⟨y, hyL,
          List.mem_append.mpr (Or.inl (List.mem_append.mpr (Or.inl hnm)))⟩),
      hcomp tokW p.wly (fun nm hnm => by
        rw [hDeq]
        exact List.mem_flatMap.mpr ⟨y, hyL,
          List.mem_append.mpr (Or.inl (List.mem_append.mpr (Or.inr hnm)))⟩),
      hcomp tokM p.mly (fun nm hnm => by
        rw [hDeq]
        exact List.mem_flatMap.mpr ⟨y, hyL, List.mem_append.mpr (Or.inr hnm)⟩)]
    rfl
  rw [hz]

/-! ### The naming round trip -/

theorem digitC_ne_underscore (n : Nat) : digitC n ≠ '_' := by
  unfold digitC
  split <;> decide

theorem underscore_not_dateSql (dt : Date) : '_' ∉ dateSql dt := by
  intro hm
  have hd : ∀ n : Nat, ¬('_' = digitC n) := fun n h => digitC_ne_underscore n h.symm
  have h2 : ¬(('_' : Char) = '-') := by decide
  have h3 : ('_' : Char) ∉ sqlSuffix := by decide
  simp [dateSql, pad4, pad2, hd, h2, h3] at hm

theorem underscore_not_joinDash {l : List Name} (h : ∀ s ∈ l, '_' ∉ s) :
    '_' ∉ joinDash l := by
  induction l with
  | nil => simp [joinDash]
  | cons a rest ih =>
    cases rest with
    | nil => simpa [joinDash] using h a (by simp)
    | cons b bs =>
      rw [show joinDash (a :: b :: bs) = a ++ '-' :: joinDash (b :: bs) from rfl]
      intro hm
      rcases List.mem_append.mp hm with hm | hm
      · exact h a (List.mem_cons_self a _) hm
      · rcases List.mem_cons.mp hm with hm | hm
        · exact absurd hm (by decide)
        · exact ih (fun s hs => h s (List.mem_cons_of_mem _ hs)) hm

theorem splitU_mkName {t : Tier} {g : Name} (dt : Date) (hg : '_' ∉ g) :
    splitU (mkName t g dt) = [tierTok t, g, dateSql dt] := by
  rw [mkName, splitU_append _ (by cases t <;> decide), splitU_append _ hg,
    splitU_no_sep (underscore_not_dateSql dt)]

theorem tierOfTok_tierTok (t : Tier) : tierOfTok (tierTok t) = some t := by
  cases t <;> rfl

theorem dateOkB_dateSql {dt : Date} (h : DateOk dt) : dateOkB (dateSql dt) = true := by
  have b : ∀ k : Nat, k % 10 < 10 := fun k => Nat.mod_lt _ (by norm_num)
  have hdig : ∀ k < 10, isDigitB (digitC k) = true := by decide
  simp only [dateSql, pad4, pad2, sqlSuffix, List.cons_append, List.nil_append, dateOkB]
  rw [hdig _ (b _), hdig _ (b _), hdig _ (b _), hdig _ (b _), hdig _ (b _), hdig _ (b _),
    hdig _ (b _), hdig _ (b _)]
  simp

/-- C5: decoding an encoded artifact name
`{TIER}_{sorted-dash-joined-db-names}_{YYYY-MM-DD}.sql` by splitting on `'_'`
into exactly three fields recovers the tier, the group key (the sorted,
dash-joined database list), and the date — for database tokens free of `'_'`
and dates the fixed-width format can render. -/
theorem C5_roundtrip (t : Tier) (dbs : List Name) (dt : Date)
    (hdbs : ∀ s ∈ dbs, '_' ∉ s) (hdt : DateOk dt) :
    decodeSpec (encodeName t dbs dt) = some (t, joinDash (isortR lexLe dbs), dt) := by
  have hg : '_' ∉ joinDash (isortR lexLe dbs) :=
    underscore_not_joinDash fun s hs => hdbs s (mem_isortR.mp hs)
  unfold encodeName decodeSpec
  rw [splitU_mkName dt hg]
  simp only [tierOfTok_tierTok, dateOkB_dateSql hdt, if_true]
  rw [parseDateKey_dateSql hdt]

/-! ### Orchestration claims -/

/-- C3: no configuration assigns a `_skip_local` attribute — `_scrape_args`
assigns exactly `_{k.lower()}` for the keys of `__DEFAULT_PROPERTIES__`
(where only `SKIP_REMOTE` exists), `_bookkeeping` and `read_db` add only
`_backup_counts`/`_make_weekly`/`_make_monthly`/`_filename` and
`stdout`/`stderr` — so `dump_local` raises `AttributeError` at its first
statement (line 255), before any write or delete; the local leg of a cycle
never completes. -/
theorem C3_skip_local_never_assigned (env cli : String → Option String)
    (skipLocal mkW mkM : Bool) (fname : Name) (listing : List Name) (p : Policy) :
    "_skip_local" ∉ attrsAfterRead env cli ∧
    dump_local (attrsAfterRead env cli) skipLocal mkW mkM fname listing p =
      ([], some "AttributeError: _skip_local") := by
  have hmem : "_skip_local" ∉ attrsAfterRead env cli := by
    simp [attrsAfterRead, attrsAfterInit, scrapeAttrNames, bookkeepingAttrNames]
  exact ⟨hmem, by rw [dump_local, if_neg hmem]⟩

/-- C7 counterexample: with the attribute set the program actually builds
(default configuration), `dump_local` raises before writing anything — the
dump content is not written under the DAILY name even on an ordinary day;
and `dump_remote`, on a day whose local staging lacks the WEEKLY file for
today (a non-qualifying day), raises `"Unable to copy weekly backup."` after
the DAILY upload instead of completing with only the DAILY artifact. -/
theorem C7_counterexample :
    dump_local (attrsAfterRead (fun _ => none) (fun _ => none)) false true true
      "db_2024-01-02.sql".toList ["DAILY_db_2024-01-02.sql".toList] ⟨5, 5, 5⟩ =
      ([], some "AttributeError: _skip_local") ∧
    dump_remote false ["DAILY_db_2024-01-02.sql".toList] "db_2024-01-02.sql".toList
      ["DAILY_db_2024-01-02.sql".toList] ⟨5, 5, 5⟩ (fun _ => true) =
      ([.connect, .sftpOpen, .putFile "DAILY_db_2024-01-02.sql".toList],
        some "Unable to copy weekly backup.") := by
  constructor
  · have hmem : "_skip_local" ∉ attrsAfterRead (fun _ => none) (fun _ => none) := by
      simp [attrsAfterRead, attrsAfterInit, scrapeAttrNames, bookkeepingAttrNames]
    rw [dump_local, if_neg hmem]
  · rw [dump_remote, if_neg (by simp)]
    rw [if_pos (by decide), if_neg (by decide)]
    rfl

/-- C7 (amended): in the staging step, `dump_local`'s body (reachable only if
the `_skip_local` attribute existed, which it never does — C3) writes the dump
under DAILY unconditionally and under WEEKLY/MONTHLY exactly on qualifying
days; `dump_remote` instead attempts all three tier uploads unconditionally,
so on a day whose local staging lacks the WEEKLY file for today it raises
after the DAILY upload and the remote leg fails rather than completing with
only the DAILY artifact. -/
theorem C7_staging (attrs : List String) (mkW mkM : Bool) (fname : Name)
    (listing : List Name) (p : Policy) (hattr : "_skip_local" ∈ attrs)
    (localFiles remoteListing : List Name) (removeOk : Name → Bool)
    (hd : dailyName fname ∈ localFiles) (hw : weeklyName fname ∉ localFiles) :
    (∃ rest, (dump_local attrs false mkW mkM fname listing p).1 =
      LEv.writeFile (dailyName fname) ::
        ((if mkW then [LEv.writeFile (weeklyName fname)] else []) ++
          (if mkM then [LEv.writeFile (monthlyName fname)] else [])) ++ rest) ∧
    dump_remote false localFiles fname remoteListing p removeOk =
      ([.connect, .sftpOpen, .putFile (dailyName fname)],
        some "Unable to copy weekly backup.") := by
  constructor
  · cases hm : manage_files listing p with
    | error e =>
      exact ⟨[], by rw [dump_local, if_pos hattr]; simp [hm]⟩
    | ok D =>
      exact ⟨D.reverse.map LEv.removeFile, by rw [dump_local, if_pos hattr]; simp [hm]⟩
  · rw [dump_remote, if_neg (by simp), if_pos hd, if_neg hw]

/-- C8 counterexample: a dump process exiting with status 2 but empty stderr
is not treated as a dump failure — `read_db` returns normally (the exit
status is never inspected at lines 234-242) and `main` goes on to attempt
staging, contradicting the claim that a non-zero dump exit aborts the cycle
before staging. -/
theorem C8_counterexample :
    read_db (some "") 2 = .ok () ∧
    (mainModel (some "") 2 (attrsAfterRead (fun _ => none) (fun _ => none)) false true true
      "f".toList [] false [] [] ⟨5, 5, 5⟩ (fun _ => true)).1 =
      [.dumpAttempt, .localStage] := by
  constructor
  · rfl
  · rfl

/-- C8 (amended): of the three stated dump-failure conditions only non-empty
error output is detected: then `read_db` raises `RuntimeError`, `main` stops
before `dump_local`/`dump_remote` — no staging, remote operation or pruning
is attempted — and the process exits non-zero.  Non-zero exit status and
timeouts are never checked (counterexample). -/
theorem C8_dump_failure (s : String) (hs : s.length ≠ 0) (exitCode : Int)
    (attrs : List String) (skipLocal mkW mkM : Bool) (fname : Name)
    (localListing : List Name) (skipRemote : Bool) (localFiles remoteListing : List Name)
    (p : Policy) (removeOk : Name → Bool) :
    read_db (some s) exitCode = .error "RuntimeError" ∧
    mainModel (some s) exitCode attrs skipLocal mkW mkM fname localListing skipRemote
      localFiles remoteListing p removeOk = ([.dumpAttempt], false) := by
  have h1 : read_db (some s) exitCode = .error "RuntimeError" := by
    simp [read_db, hs]
  exact ⟨h1, by rw [mainModel]; rw [h1]⟩

theorem removeLoop_events (ro : Name → Bool) (l : List Name) :
    ∀ e ∈ (removeLoop ro l).1, ∃ nm, e = REv.removeFile nm := by
  induction l with
  | nil => intro e he; cases he
  | cons nm rest ih =>
    intro e he
    rw [removeLoop] at he
    split at he
    · rcases List.mem_cons.mp he with rfl | he'
      · exact ⟨nm, rfl⟩
      · exact ih e he'
    · cases he

/-- C9 counterexample: when the weekly upload fails (no local WEEKLY file for
today), `dump_remote` raises after opening the SFTP session, and neither
`sftp.close()` nor `client.close()` is ever reached — the session is left
open on this failure path. -/
theorem C9_counterexample :
    dump_remote false ["DAILY_f".toList] "f".toList [] ⟨5, 5, 5⟩ (fun _ => true) =
      ([.connect, .sftpOpen, .putFile "DAILY_f".toList],
        some "Unable to copy weekly backup.") ∧
    REv.sftpOpen ∈ [REv.connect, REv.sftpOpen, REv.putFile "DAILY_f".toList] ∧
    REv.sftpClose ∉ [REv.connect, REv.sftpOpen, REv.putFile "DAILY_f".toList] ∧
    REv.clientClose ∉ [REv.connect, REv.sftpOpen, REv.putFile "DAILY_f".toList] := by
  refine ⟨?_, by decide, by decide, by decide⟩
  rw [dump_remote, if_neg (by simp)]
  rw [if_pos (by decide), if_neg (by decide)]
  rfl

/-- C9 (amended): the secure session is closed exactly on the all-success
path of the remote leg: if `dump_remote` (not skipped) returns no error its
trace contains `sftp.close()` and `client.close()`; on every failure path the
exception propagates first (there is no `try/finally`), so the closes never
appear in the trace. -/
theorem C9_session_close (localFiles : List Name) (fname : Name)
    (remoteListing : List Name) (p : Policy) (removeOk : Name → Bool) :
    ((dump_remote false localFiles fname remoteListing p removeOk).2 = none →
      REv.sftpClose ∈ (dump_remote false localFiles fname remoteListing p removeOk).1 ∧
      REv.clientClose ∈ (dump_remote false localFiles fname remoteListing p removeOk).1) ∧
    ((dump_remote false localFiles fname remoteListing p removeOk).2 ≠ none →
      REv.sftpClose ∉ (dump_remote false localFiles fname remoteListing p removeOk).1 ∧
      REv.clientClose ∉ (dump_remote false localFiles fname remoteListing p removeOk).1) := by
  rw [dump_remote, if_neg (by simp)]
  by_cases h1 : dailyName fname ∈ localFiles
  · rw [if_pos h1]
    by_cases h2 : weeklyName fname ∈ localFiles
    · rw [if_pos h2]
      by_cases h3 : monthlyName fname ∈ localFiles
      · rw [if_pos h3]
        cases hmf : manage_files remoteListing p with
        | error e =>
          constructor
          · intro h; simp at h
          · intro _; constructor <;> simp
        | ok D =>
          cases hr2 : (removeLoop removeOk D.reverse).2 with
          | none =>
            simp only [hr2]
            constructor
            · intro _
              constructor <;> simp
            · intro h; simp at h
          | some e =>
            simp only [hr2]
            constructor
            · intro h; simp at h
            · intro _
              constructor <;>
                · intro hmem
                  simp only [List.mem_append, List.mem_cons, List.not_mem_nil] at hmem
                  rcases hmem with h | h
                  · rcases h with h | h | h | h | h | h | h <;> simp_all
                  · obtain ⟨nm, hnm⟩ := removeLoop_events removeOk D.reverse _ h
                    cases hnm
      · rw [if_neg h3]
        constructor
        · intro h; simp at h
        · intro _; constructor <;> simp
    · rw [if_neg h2]
      constructor
      · intro h; simp at h
      · intro _; constructor <;> simp
  · rw [if_neg h1]
    constructor
    · intro h; simp at h
    · intro _; constructor <;> simp

/-! ### Witnesses -/

/-- Witness for C1: three DAILY `orders` artifacts under DAILY count 2. -/
theorem C1_bucket_retention_witness :
    ∃ D, manage_files ["DAILY_orders_2024-01-01.sql".toList,
        "DAILY_orders_2024-01-02.sql".toList, "DAILY_orders_2024-01-03.sql".toList]
        ⟨2, 1, 1⟩ = .ok D ∧
      D.filter (bucketPred "orders".toList Tier.DAILY) =
        (isortR specLe (bucket ["DAILY_orders_2024-01-01.sql".toList,
          "DAILY_orders_2024-01-02.sql".toList, "DAILY_orders_2024-01-03.sql".toList]
          "orders".toList Tier.DAILY)).take
          ((bucket ["DAILY_orders_2024-01-01.sql".toList,
            "DAILY_orders_2024-01-02.sql".toList, "DAILY_orders_2024-01-03.sql".toList]
            "orders".toList Tier.DAILY).length - Policy.count ⟨2, 1, 1⟩ Tier.DAILY) ∧
      (D.filter (bucketPred "orders".toList Tier.DAILY)).length =
        (bucket ["DAILY_orders_2024-01-01.sql".toList,
          "DAILY_orders_2024-01-02.sql".toList, "DAILY_orders_2024-01-03.sql".toList]
          "orders".toList Tier.DAILY).length - Policy.count ⟨2, 1, 1⟩ Tier.DAILY :=
  C1_bucket_retention _ _ _ _ (by decide) (by decide)

/-- Witness for C2: a two-field entry aborts the computation; every deleted
name contains a tier token. -/
theorem C2_malformed_witness :
    manage_files ["a_b".toList] ⟨5, 5, 5⟩ = .error () ∧
    (isInfixB tokD "DAILY_x_2024-01-01.sql".toList = true ∨
      isInfixB tokW "DAILY_x_2024-01-01.sql".toList = true ∨
      isInfixB tokM "DAILY_x_2024-01-01.sql".toList = true) :=
  ⟨C2_malformed.1 ["a_b".toList] ⟨5, 5, 5⟩ "a_b".toList (by decide) (by decide),
   C2_malformed.2 ["DAILY_x_2024-01-01.sql".toList] ⟨0, 5, 5⟩
     ["DAILY_x_2024-01-01.sql".toList] rfl "DAILY_x_2024-01-01.sql".toList (by decide)⟩

/-- Witness for C5: `DAILY`, one database `orders`, 2024-01-01. -/
theorem C5_roundtrip_witness :
    decodeSpec (encodeName Tier.DAILY ["orders".toList] ⟨2024, 1, 1⟩) =
      some (Tier.DAILY, joinDash (isortR lexLe ["orders".toList]), ⟨2024, 1, 1⟩) :=
  C5_roundtrip Tier.DAILY ["orders".toList] ⟨2024, 1, 1⟩ (by decide)
    ⟨by decide, by decide, by decide⟩

/-- Witness for C6: two dailies, count 1; after removing the computed
deletion the recomputation deletes nothing. -/
theorem C6_idempotent_witness :
    manage_files ((["DAILY_orders_2024-01-01.sql".toList,
      "DAILY_orders_2024-01-02.sql".toList]).filter
        fun nm => decide (nm ∉ ["DAILY_orders_2024-01-01.sql".toList])) ⟨1, 5, 5⟩ =
      .ok [] :=
  C6_idempotent ["DAILY_orders_2024-01-01.sql".toList,
    "DAILY_orders_2024-01-02.sql".toList] ⟨1, 5, 5⟩
    ["DAILY_orders_2024-01-01.sql".toList] (by decide) rfl (by decide)

/-- Witness for C10: two groups `alpha`/`beta`, three dailies each, count 2
(Scenario D). -/
theorem C10_group_independence_witness :
    (["DAILY_alpha_2024-01-01.sql".toList, "DAILY_beta_2024-01-01.sql".toList] =
      ((groupsOf ["DAILY_alpha_2024-01-01.sql".toList, "DAILY_alpha_2024-01-02.sql".toList,
        "DAILY_alpha_2024-01-03.sql".toList, "DAILY_beta_2024-01-01.sql".toList,
        "DAILY_beta_2024-01-02.sql".toList, "DAILY_beta_2024-01-03.sql".toList]).flatMap
          fun y => groupDrops ⟨2, 5, 5⟩
            (subOf ["DAILY_alpha_2024-01-01.sql".toList, "DAILY_alpha_2024-01-02.sql".toList,
              "DAILY_alpha_2024-01-03.sql".toList, "DAILY_beta_2024-01-01.sql".toList,
              "DAILY_beta_2024-01-02.sql".toList, "DAILY_beta_2024-01-03.sql".toList] y))) ∧
    ∀ y ∈ groupsOf ["DAILY_alpha_2024-01-01.sql".toList, "DAILY_alpha_2024-01-02.sql".toList,
        "DAILY_alpha_2024-01-03.sql".toList, "DAILY_beta_2024-01-01.sql".toList,
        "DAILY_beta_2024-01-02.sql".toList, "DAILY_beta_2024-01-03.sql".toList],
      ∀ nm ∈ groupDrops ⟨2, 5, 5⟩
        (subOf ["DAILY_alpha_2024-01-01.sql".toList, "DAILY_alpha_2024-01-02.sql".toList,
          "DAILY_alpha_2024-01-03.sql".toList, "DAILY_beta_2024-01-01.sql".toList,
          "DAILY_beta_2024-01-02.sql".toList, "DAILY_beta_2024-01-03.sql".toList] y),
        field2 nm = y :=
  C10_group_independence _ _ _ rfl

/-- Witness for C7: `_skip_local` present and false, weekly day, local WEEKLY
file missing on the remote leg's source. -/
theorem C7_staging_witness :
    (∃ rest, (dump_local ["_skip_local"] false true false "f".toList [] ⟨5, 5, 5⟩).1 =
      LEv.writeFile (dailyName "f".toList) ::
        ((if true then [LEv.writeFile (weeklyName "f".toList)] else []) ++
          (if false then [LEv.writeFile (monthlyName "f".toList)] else [])) ++ rest) ∧
    dump_remote false ["DAILY_f".toList] "f".toList [] ⟨5, 5, 5⟩ (fun _ => true) =
      ([.connect, .sftpOpen, .putFile (dailyName "f".toList)],
        some "Unable to copy weekly backup.") :=
  C7_staging ["_skip_local"] true false "f".toList [] ⟨5, 5, 5⟩ (by decide)
    ["DAILY_f".toList] [] (fun _ => true) (by decide) (by decide)

/-- Witness for C8: non-empty stderr aborts the cycle before staging. -/
theorem C8_dump_failure_witness :
    read_db (some "err") 0 = .error "RuntimeError" ∧
    mainModel (some "err") 0 [] false false false "f".toList [] false [] [] ⟨5, 5, 5⟩
      (fun _ => true) = ([.dumpAttempt], false) :=
  C8_dump_failure "err" (by decide) 0 [] false false false "f".toList [] false [] []
    ⟨5, 5, 5⟩ (fun _ => true)

/-- Witness for C9: an all-success remote leg closes the session. -/
theorem C9_session_close_witness :
    REv.sftpClose ∈ (dump_remote false ["DAILY_db_2024-01-01.sql".toList,
      "WEEKLY_db_2024-01-01.sql".toList, "MONTHLY_db_2024-01-01.sql".toList]
      "db_2024-01-01.sql".toList ["DAILY_db_2024-01-01.sql".toList] ⟨5, 5, 5⟩
      (fun _ => true)).1 ∧
    REv.clientClose ∈ (dump_remote false ["DAILY_db_2024-01-01.sql".toList,
      "WEEKLY_db_2024-01-01.sql".toList, "MONTHLY_db_2024-01-01.sql".toList]
      "db_2024-01-01.sql".toList ["DAILY_db_2024-01-01.sql".toList] ⟨5, 5, 5⟩
      (fun _ => true)).1 :=
  (C9_session_close ["DAILY_db_2024-01-01.sql".toList, "WEEKLY_db_2024-01-01.sql".toList,
    "MONTHLY_db_2024-01-01.sql".toList] "db_2024-01-01.sql".toList
    ["DAILY_db_2024-01-01.sql".toList] ⟨5, 5, 5⟩ (fun _ => true)).1 (by decide)

end DbBackup
